import Mathlib

set_option maxRecDepth 10000

/-
  Verification development for the `publicsuffix` Go package
  (rule compiler and public-suffix matching engine).

  Go strings are modelled as `List Char`.  All rule data handled by the
  package is ASCII (enforced by `validSuffixRE` at build time), so Go's
  byte indices coincide with character indices, and every slice the code
  takes on a query domain happens at a `'.'` boundary (a one-byte rune),
  so the character-level model tracks the byte-level code faithfully.
  Go's `-1`-returning index functions are modelled with `Int` results.
-/

/-- Characters removed by `strings.TrimSpace` (ASCII whitespace). -/
def isSpaceChar (c : Char) : Bool :=
  c = ' ' || c = '\t' || c = '\n' || c = '\r' || c = '\x0b' || c = '\x0c'

/-- Model of `strings.TrimSpace`: drop whitespace on both ends. -/
def trimSpace (s : List Char) : List Char :=
  ((s.dropWhile isSpaceChar).reverse.dropWhile isSpaceChar).reverse

/-- Model of `strings.HasPrefix s pre`. -/
def goStartsWith (s pre : List Char) : Bool :=
  decide (s.take pre.length = pre)

/-- Model of `strings.HasSuffix s suffix`:
`len(s) >= len(suffix) && s[len(s)-len(suffix):] == suffix`. -/
def goHasSuffix (s suffix : List Char) : Bool :=
  decide (suffix.length ≤ s.length) && decide (s.drop (s.length - suffix.length) = suffix)

/-- Model of `strings.Contains s sub`. -/
def goContains : List Char → List Char → Bool
  | [], sub => decide (sub = [])
  | a :: rest, sub => goStartsWith (a :: rest) sub || goContains rest sub

/-- Model of `strings.Index s c` for a single-character needle:
index of the first occurrence of `c`, `-1` if absent. -/
def strIndexChar : List Char → Char → Int
  | [], _ => -1
  | a :: rest, c =>
      if a = c then 0
      else
        let r := strIndexChar rest c
        if r = -1 then -1 else r + 1

/-- Model of `strings.LastIndex s c` for a single-character needle:
index of the last occurrence of `c`, `-1` if absent. -/
def strLastIndexChar : List Char → Char → Int
  | [], _ => -1
  | a :: rest, c =>
      let r := strLastIndexChar rest c
      if r = -1 then (if a = c then 0 else -1) else r + 1

/-- Model of `strings.Count s c` for a single-character needle. -/
def countChar (s : List Char) (c : Char) : Nat :=
  (s.filter (fun a => a = c)).length

/-- Model of `strings.Replace(s, ".", "", -1)`: remove every dot. -/
def removeDots (s : List Char) : List Char :=
  s.filter (fun a => a != '.')

/-- `rule` struct from publicsuffix.go. -/
inductive RuleType where
  | normal
  | wildcard
  | exception
deriving DecidableEq, Repr

structure Rule where
  dottedName : List Char
  ruleType : RuleType
  icann : Bool
deriving DecidableEq, Repr

/-- `subdomain` struct from publicsuffix.go. -/
structure Subdomain where
  name : List Char
  dottedName : List Char
deriving DecidableEq, Repr

/-- `rulesInfo` struct: the Go `map[string][]rule` is modelled as an
association list with unique keys (lookup by key, insertion appends the
rule to the end of its key's list, new keys are appended). -/
structure RulesInfo where
  map : List (List Char × List Rule)
  release : List Char
deriving DecidableEq, Repr

/-- Go map read `m[k]` with its `found` flag. -/
def mapLookup : List (List Char × List Rule) → List Char → Option (List Rule)
  | [], _ => none
  | (k, v) :: rest, key => if k = key then some v else mapLookup rest key

/-- Go `m[k] = append(m[k], r)`: append `r` at the end of key `k`'s list,
creating the entry when absent. -/
def mapAppend : List (List Char × List Rule) → List Char → Rule → List (List Char × List Rule)
  | [], key, r => [(key, [r])]
  | (k, v) :: rest, key, r =>
      if k = key then (k, v ++ [r]) :: rest else (k, v) :: mapAppend rest key r

/-- The loop of `decomposeDomain`: repeatedly strip the leading label.
The fuel argument (instantiated with `name.length`) bounds the iteration
count; each iteration removes at least one character, so the fuel is
never exhausted before `strings.Index` returns `-1`. -/
def decomposeFuel : Nat → List Char → List Subdomain
  | 0, _ => []
  | fuel + 1, name =>
      let dot := strIndexChar name '.'
      if dot = -1 then []
      else
        let rest := name.drop (dot + 1).toNat
        ⟨removeDots rest, rest⟩ :: decomposeFuel fuel rest

/-- `decomposeDomain` from publicsuffix.go: the domain itself followed by
every proper dotted suffix, most labels first. -/
def decomposeDomain (domain : List Char) : List Subdomain :=
  ⟨removeDots domain, domain⟩ :: decomposeFuel domain.length domain

/-- Result triple of `searchList`: (suffix, ICANN flag, found flag). -/
abbrev SearchResult := List Char × Bool × Bool

/-- The wildcard-branch loop of `searchList`:
`for i := 0; i < nbLevels && dot != -1; i++ { dot = strings.LastIndex(domain[:dot], ".") }`. -/
def wildcardWalk (domain : List Char) : Nat → Int → Int
  | 0, dot => dot
  | n + 1, dot =>
      if dot = -1 then dot
      else wildcardWalk domain n (strLastIndexChar (domain.take dot.toNat) '.')

/-- The inner rule loop of `searchList`: try each rule stored under the
matched signature in order; the first structurally valid rule returns. -/
def searchRules (domain : List Char) (sub : Subdomain) : List Rule → Option SearchResult
  | [] => none
  | r :: rest =>
      match r.ruleType with
      | .wildcard =>
          -- first check if the rule is contained within the domain without the *.
          if goHasSuffix sub.dottedName (r.dottedName.drop 2) = false then
            searchRules domain sub rest
          else if domain.length < r.dottedName.length then
            -- corner case where the domain has no left side, i.e. ".ck" with rule "*.ck"
            if domain.headD ' ' = '.' ∧ domain = r.dottedName.drop 1 then
              some (domain, r.icann, true)
            else
              searchRules domain sub rest
          else
            some (domain.drop ((wildcardWalk domain (countChar r.dottedName '.' + 1)
                ((domain.length : Int) - 1)) + 1).toNat, r.icann, true)
      | .exception =>
          -- first check if the rule is contained within the domain without !
          if goHasSuffix sub.dottedName (r.dottedName.drop 1) = false then
            searchRules domain sub rest
          else
            some (r.dottedName.drop ((strIndexChar r.dottedName '.') + 1).toNat, r.icann, true)
      | .normal =>
          -- first check if the rule is contained within the domain
          if goHasSuffix sub.dottedName r.dottedName = false then
            searchRules domain sub rest
          else
            some (r.dottedName, r.icann, true)

/-- The outer subdomain loop of `searchList`: probe levels from most
labels to fewest; a level without a signature hit, or whose rules all
fail, is skipped. -/
def searchLevels (m : List (List Char × List Rule)) (domain : List Char) :
    List Subdomain → Option SearchResult
  | [] => none
  | sub :: rest =>
      match mapLookup m sub.name with
      | none => searchLevels m domain rest
      | some rules =>
          match searchRules domain sub rules with
          | some res => some res
          | none => searchLevels m domain rest

/-- `searchList` from publicsuffix.go, parameterised by the currently
loaded `rulesInfo`. -/
def searchList (info : RulesInfo) (domain : List Char) : SearchResult :=
  -- If the domain ends on a dot the subdomains can't be obtained
  if strLastIndexChar domain '.' = (domain.length : Int) - 1 then ([], false, false)
  else
    match searchLevels info.map domain (decomposeDomain domain) with
    | some res => res
    | none =>
        -- If no rules match, the prevailing rule is "*"
        (domain.drop ((strLastIndexChar domain '.') + 1).toNat, false, false)

/-- One allowed character of `validSuffixRE = ^[a-z0-9_\!\*\-\.]+$`. -/
def validChar (c : Char) : Bool :=
  ('a' ≤ c && c ≤ 'z') || ('0' ≤ c && c ≤ '9') ||
  c = '_' || c = '!' || c = '*' || c = '-' || c = '.'

/-- `validSuffixRE.MatchString`: nonempty and all characters allowed. -/
def validLine (s : List Char) : Bool :=
  decide (s ≠ []) && s.all validChar

/-- `icannBegin` marker substring. -/
def icannBeginMarker : List Char := "BEGIN ICANN DOMAINS".data

/-- `icannEnd` marker substring. -/
def icannEndMarker : List Char := "END ICANN DOMAINS".data

/-- Scanner state of `newList`: the ICANN section flag and the map built
so far. -/
structure ScanState where
  icann : Bool
  map : List (List Char × List Rule)
deriving DecidableEq, Repr

/-- One iteration of the `newList` scanner loop.  `toASCII` abstracts the
external `idna.ToASCII` library call (`none` models a conversion error).
`none` as a result models `newList` returning an error. -/
def processLine (toASCII : List Char → Option (List Char)) (st : ScanState)
    (rawLine : List Char) : Option ScanState :=
  let line := trimSpace rawLine
  if goContains line icannBeginMarker then some { st with icann := true }
  else if goContains line icannEndMarker then some { st with icann := false }
  else if line = [] ∨ goStartsWith line "//".data then some st
  else
    match toASCII line with
    | none => none
    | some line =>
        if validLine line = false then none
        else
          let concatenatedLine := removeDots line
          if goStartsWith concatenatedLine "*".data then
            some { st with
              map := mapAppend st.map (concatenatedLine.drop 1) ⟨line, .wildcard, st.icann⟩ }
          else if goStartsWith concatenatedLine "!".data then
            some { st with
              map := mapAppend st.map (concatenatedLine.drop 1) ⟨line, .exception, st.icann⟩ }
          else
            some { st with
              map := mapAppend st.map concatenatedLine ⟨line, .normal, st.icann⟩ }

/-- `newList` from publicsuffix.go: scan the input lines and build the
rules map; any bad line aborts the whole build with an error (`none`). -/
def newList (toASCII : List Char → Option (List Char)) (lines : List (List Char))
    (release : List Char) : Option RulesInfo :=
  (lines.foldlM (processLine toASCII) ⟨false, []⟩).map fun st => ⟨st.map, release⟩

/-- `PublicSuffix`: the suffix and ICANN flag of `searchList`. -/
def PublicSuffix (info : RulesInfo) (domain : List Char) : List Char × Bool :=
  let r := searchList info domain
  (r.1, r.2.1)

/-- `EffectiveTLDPlusOne` from publicsuffix.go.  The two distinct Go error
messages are both modelled as `none`. -/
def EffectiveTLDPlusOne (info : RulesInfo) (domain : List Char) : Option (List Char) :=
  let suffix := (PublicSuffix info domain).1
  if domain.length ≤ suffix.length then none
  else
    let i := domain.length - suffix.length - 1
    if domain.getD i ' ' ≠ '.' then none
    else some (domain.drop ((strLastIndexChar (domain.take i) '.') + 1).toNat)

/-- A `ListRetriever` as `UpdateWithListRetriever` consumes it: the
latest release tag (`none` models a retrieval error) and the list fetch
for a tag (`none` models a fetch error, otherwise the scanned lines). -/
structure ListRetrieverModel where
  getLatestReleaseTag : Option (List Char)
  getList : List Char → Option (List (List Char))

/-- `UpdateWithListRetriever` from publicsuffix.go (state-passing model
of the `rules` atomic store): takes the currently published `rulesInfo`,
returns the published info afterwards and whether the call succeeded. -/
def UpdateWithListRetriever (toASCII : List Char → Option (List Char))
    (lr : ListRetrieverModel) (current : RulesInfo) : RulesInfo × Bool :=
  match lr.getLatestReleaseTag with
  | none => (current, false)
  | some latestTag =>
      if current.release = latestTag then (current, true)
      else
        match lr.getList latestTag with
        | none => (current, false)
        | some rawList =>
            match newList toASCII rawList latestTag with
            | none => (current, false)
            | some info => (info, true)

/-- The identity ASCII conversion used to instantiate `toASCII` on the
all-ASCII concrete inputs of this file (on which `idna.ToASCII` is the
identity and never fails). -/
def asciiId (s : List Char) : Option (List Char) := some s

/-- Characterisation of when a rule is structurally applicable, i.e. the
exact condition under which `searchRules` returns at this rule instead of
continuing with the next candidate (read off the three branches of the
rule loop of `searchList`). -/
def isApplicable (domain : List Char) (sub : Subdomain) (r : Rule) : Bool :=
  match r.ruleType with
  | .wildcard =>
      goHasSuffix sub.dottedName (r.dottedName.drop 2) &&
        (decide (r.dottedName.length ≤ domain.length) ||
          (decide (domain.headD ' ' = '.') && decide (domain = r.dottedName.drop 1)))
  | .exception => goHasSuffix sub.dottedName (r.dottedName.drop 1)
  | .normal => goHasSuffix sub.dottedName r.dottedName

/-- What `newList` guarantees for a rule stored under a given map key:
the dotted name is nonempty (enforced by `validSuffixRE`), and the key is
the rule's signature (dots removed, leading marker stripped), with the
rule type matching the marker. -/
def RuleWF (key : List Char) (r : Rule) : Prop :=
  r.dottedName ≠ [] ∧
  match r.ruleType with
  | .wildcard =>
      goStartsWith (removeDots r.dottedName) "*".data = true ∧
      key = (removeDots r.dottedName).drop 1
  | .exception =>
      goStartsWith (removeDots r.dottedName) "!".data = true ∧
      key = (removeDots r.dottedName).drop 1
  | .normal => key = removeDots r.dottedName

/-- Every rule of the map is stored under its own signature. -/
def MapWF (m : List (List Char × List Rule)) : Prop :=
  ∀ kv ∈ m, ∀ r ∈ kv.2, RuleWF kv.1 r

/-- State of the parse-only scan used to state the insertion-order
invariant of the builder: the ICANN flag and the `(signature, rule)`
pairs in input order. -/
structure ScanListState where
  icann : Bool
  rules : List (List Char × Rule)
deriving DecidableEq, Repr

/-- The same line-scan as `processLine`, but recording the processed
`(signature, rule)` pairs in input order instead of folding them into the
map.  This is the reference order against which the map built by
`newList` is compared. -/
def processLinePair (toASCII : List Char → Option (List Char)) (st : ScanListState)
    (rawLine : List Char) : Option ScanListState :=
  let line := trimSpace rawLine
  if goContains line icannBeginMarker then some { st with icann := true }
  else if goContains line icannEndMarker then some { st with icann := false }
  else if line = [] ∨ goStartsWith line "//".data then some st
  else
    match toASCII line with
    | none => none
    | some line =>
        if validLine line = false then none
        else
          let concatenatedLine := removeDots line
          if goStartsWith concatenatedLine "*".data then
            some { st with
              rules := st.rules ++ [(concatenatedLine.drop 1, ⟨line, .wildcard, st.icann⟩)] }
          else if goStartsWith concatenatedLine "!".data then
            some { st with
              rules := st.rules ++ [(concatenatedLine.drop 1, ⟨line, .exception, st.icann⟩)] }
          else
            some { st with
              rules := st.rules ++ [(concatenatedLine, ⟨line, .normal, st.icann⟩)] }

/-- The `(signature, rule)` pairs of an input list, in input order. -/
def scanRules (toASCII : List Char → Option (List Char)) (lines : List (List Char)) :
    Option (List (List Char × Rule)) :=
  (lines.foldlM (processLinePair toASCII) ⟨false, []⟩).map fun st => st.rules

/-- The rules carrying signature `k`, in order. -/
def pairsFor (k : List Char) (prs : List (List Char × Rule)) : List Rule :=
  (prs.filter fun p => decide (p.1 = k)).map Prod.snd

/-
  Panic-checked model of `searchList`, used to state that the Go code
  never indexes or slices out of bounds.  Each Go string index `s[i]` and
  slice `s[i:]` / `s[:i]` is replaced by a bounds-checked operation; a
  result of `none` models a Go runtime panic.
-/

/-- Checked Go slice `s[i:]` (panics unless `0 ≤ i ≤ len s`). -/
def sliceFrom? (s : List Char) (i : Int) : Option (List Char) :=
  if 0 ≤ i ∧ i ≤ s.length then some (s.drop i.toNat) else none

/-- Checked Go slice `s[:i]` (panics unless `0 ≤ i ≤ len s`). -/
def sliceTo? (s : List Char) (i : Int) : Option (List Char) :=
  if 0 ≤ i ∧ i ≤ s.length then some (s.take i.toNat) else none

/-- Checked Go index `s[i]` (panics unless `0 ≤ i < len s`). -/
def charAt? (s : List Char) (i : Int) : Option Char :=
  if 0 ≤ i ∧ i < s.length then some (s.getD i.toNat ' ') else none

/-- Checked wildcard-branch loop (`domain[:dot]` is bounds-checked). -/
def wildcardWalkChecked (domain : List Char) : Nat → Int → Option Int
  | 0, dot => some dot
  | n + 1, dot =>
      if dot = -1 then some dot
      else
        match sliceTo? domain dot with
        | none => none
        | some pre => wildcardWalkChecked domain n (strLastIndexChar pre '.')

/-- Checked rule loop: `none` models a panic, `some none` means no rule
matched (continue with the next level), `some (some res)` is a result. -/
def searchRulesChecked (domain : List Char) (sub : Subdomain) :
    List Rule → Option (Option SearchResult)
  | [] => some none
  | r :: rest =>
      match r.ruleType with
      | .wildcard =>
          match sliceFrom? r.dottedName 2 with
          | none => none
          | some tail2 =>
              if goHasSuffix sub.dottedName tail2 = false then
                searchRulesChecked domain sub rest
              else if domain.length < r.dottedName.length then
                match charAt? domain 0, sliceFrom? r.dottedName 1 with
                | some c0, some tail1 =>
                    if c0 = '.' ∧ domain = tail1 then some (some (domain, r.icann, true))
                    else searchRulesChecked domain sub rest
                | _, _ => none
              else
                match wildcardWalkChecked domain (countChar r.dottedName '.' + 1)
                    ((domain.length : Int) - 1) with
                | none => none
                | some dot =>
                    match sliceFrom? domain (dot + 1) with
                    | none => none
                    | some suffix => some (some (suffix, r.icann, true))
      | .exception =>
          match sliceFrom? r.dottedName 1 with
          | none => none
          | some tail1 =>
              if goHasSuffix sub.dottedName tail1 = false then
                searchRulesChecked domain sub rest
              else
                match sliceFrom? r.dottedName ((strIndexChar r.dottedName '.') + 1) with
                | none => none
                | some suffix => some (some (suffix, r.icann, true))
      | .normal =>
          if goHasSuffix sub.dottedName r.dottedName = false then
            searchRulesChecked domain sub rest
          else
            some (some (r.dottedName, r.icann, true))

/-- Checked subdomain loop. -/
def searchLevelsChecked (m : List (List Char × List Rule)) (domain : List Char) :
    List Subdomain → Option (Option SearchResult)
  | [] => some none
  | sub :: rest =>
      match mapLookup m sub.name with
      | none => searchLevelsChecked m domain rest
      | some rules =>
          match searchRulesChecked domain sub rules with
          | none => none
          | some (some res) => some (some res)
          | some none => searchLevelsChecked m domain rest

/-- Checked `searchList`: returns `none` iff the corresponding Go
execution would panic on an out-of-bounds index or slice. -/
def searchListChecked (info : RulesInfo) (domain : List Char) : Option SearchResult :=
  if strLastIndexChar domain '.' = (domain.length : Int) - 1 then some ([], false, false)
  else
    match searchLevelsChecked info.map domain (decomposeDomain domain) with
    | none => none
    | some (some res) => some res
    | some none =>
        match sliceFrom? domain ((strLastIndexChar domain '.') + 1) with
        | none => none
        | some l => some (l, false, false)

/-
  Model of the serialisation path (`Write`/`Read`).  The external codec
  layers (`encoding/json` byte rendering and `zlib` compression, both
  inverse pairs supplied by the Go standard library) are modelled at the
  level of the JSON document: `Write` marshals the loaded `rulesInfo`
  into a JSON value with no further transformation, and `Read` unmarshals
  such a value back into a `rulesInfo` and stores it.
-/

/-- JSON documents. -/
inductive JVal where
  | jstr (s : List Char)
  | jnum (n : Int)
  | jbool (b : Bool)
  | jarr (xs : List JVal)
  | jobj (fields : List (List Char × JVal))
deriving Repr

/-- `encoding/json` integer of a `ruleType`. -/
def ruleTypeToInt : RuleType → Int
  | .normal => 0
  | .wildcard => 1
  | .exception => 2

/-- Marshal one `rule` (exported fields in struct order). -/
def encodeRule (r : Rule) : JVal :=
  .jobj [("DottedName".data, .jstr r.dottedName),
         ("RuleType".data, .jnum (ruleTypeToInt r.ruleType)),
         ("ICANN".data, .jbool r.icann)]

/-- Marshal the `rulesInfo` carried by `Write`. -/
def encodeRulesInfo (info : RulesInfo) : JVal :=
  .jobj [("Map".data, .jobj (info.map.map fun p => (p.1, .jarr (p.2.map encodeRule)))),
         ("Release".data, .jstr info.release)]

/-- JSON object field lookup (first match). -/
def jlookup : List (List Char × JVal) → List Char → Option JVal
  | [], _ => none
  | (k, v) :: rest, key => if k = key then some v else jlookup rest key

/-- Unmarshal a `ruleType` number. -/
def intToRuleType (n : Int) : Option RuleType :=
  if n = 0 then some .normal
  else if n = 1 then some .wildcard
  else if n = 2 then some .exception
  else none

/-- Unmarshal one `rule`; an absent field keeps the Go zero value. -/
def decodeRule (j : JVal) : Option Rule :=
  match j with
  | .jobj fs =>
      match (match jlookup fs "DottedName".data with
              | none => some []
              | some (.jstr s) => some s
              | some _ => none),
            (match jlookup fs "RuleType".data with
              | none => some RuleType.normal
              | some (.jnum n) => intToRuleType n
              | some _ => none),
            (match jlookup fs "ICANN".data with
              | none => some false
              | some (.jbool b) => some b
              | some _ => none) with
      | some dn, some rt, some ic => some ⟨dn, rt, ic⟩
      | _, _, _ => none
  | _ => none

/-- Unmarshal a `[]rule`. -/
def decodeRules (j : JVal) : Option (List Rule) :=
  match j with
  | .jarr xs => xs.mapM decodeRule
  | _ => none

/-- Unmarshal the rules map. -/
def decodeMap (j : JVal) : Option (List (List Char × List Rule)) :=
  match j with
  | .jobj fs => fs.mapM fun p => (decodeRules p.2).map fun rs => (p.1, rs)
  | _ => none

/-- Unmarshal a `rulesInfo` as `Read` does; an absent field keeps the Go
zero value. -/
def decodeRulesInfo (j : JVal) : Option RulesInfo :=
  match j with
  | .jobj fs =>
      match (match jlookup fs "Map".data with
              | none => some []
              | some v => decodeMap v),
            (match jlookup fs "Release".data with
              | none => some []
              | some (.jstr s) => some s
              | some _ => none) with
      | some m, some rel => some ⟨m, rel⟩
      | _, _ => none
  | _ => none

/-- `Write` at the JSON-document level: marshal the currently loaded
table, with no further transformation (the byte rendering and zlib
compression below this level are inverse codec pairs supplied by the Go
standard library). -/
def WriteJson (info : RulesInfo) : JVal := encodeRulesInfo info

/-- `Read` at the JSON-document level: unmarshal a document back into
the table that is then stored, with no further transformation. -/
def ReadJson (j : JVal) : Option RulesInfo := decodeRulesInfo j

/-
  Concrete rule tables used by the claim witnesses, each built by the
  builder itself from the rule lines of the corresponding spec example.
-/

/-- Table for the single wildcard rule `*.ck`. -/
def ckInfo : RulesInfo := (newList asciiId ["*.ck".data] "r".data).getD ⟨[], []⟩

/-- Table for `*.kobe.jp` and `!city.kobe.jp`. -/
def kobeInfo : RulesInfo :=
  (newList asciiId ["*.kobe.jp".data, "!city.kobe.jp".data] "r".data).getD ⟨[], []⟩

/-- Table for `uk` and `co.uk`. -/
def ukInfo : RulesInfo := (newList asciiId ["uk".data, "co.uk".data] "r".data).getD ⟨[], []⟩

/-- Table for `i.ng` and `ing` (shared signature `ing`). -/
def ingInfo : RulesInfo := (newList asciiId ["i.ng".data, "ing".data] "r".data).getD ⟨[], []⟩

/-- Table for the single rule `com`. -/
def comInfo : RulesInfo := (newList asciiId ["com".data] "r".data).getD ⟨[], []⟩

/-
  Helper lemmas.
-/

theorem strIndexChar_bounds (s : List Char) (c : Char) :
    strIndexChar s c = -1 ∨ (0 ≤ strIndexChar s c ∧ strIndexChar s c < s.length) := by
  induction s with
  | nil => left; rfl
  | cons a rest ih =>
      simp only [strIndexChar, List.length_cons]
      by_cases h : a = c
      · right; simp [h]
      · simp only [h, if_false]
        rcases ih with h1 | h1
        · left; simp [h1]
        · right
          have : strIndexChar rest c ≠ -1 := by omega
          simp only [this, if_false]
          push_cast
          omega

theorem strIndexChar_drop_nil (s : List Char) (c : Char)
    (h : strIndexChar s c ≠ -1)
    (hd : s.drop ((strIndexChar s c) + 1).toNat = []) : s.getLast? = some c := by
  induction s with
  | nil => simp [strIndexChar] at h
  | cons a rest ih =>
      by_cases hac : a = c
      · subst hac
        simp only [strIndexChar, if_pos rfl] at hd
        norm_num at hd
        simp [hd]
      · simp only [strIndexChar, hac, if_false] at h hd
        rcases strIndexChar_bounds rest c with h1 | h1
        · simp [h1] at h
        · have hne : strIndexChar rest c ≠ -1 := by omega
          simp only [hne, if_false] at h hd
          have harith : ((strIndexChar rest c + 1) + 1).toNat
              = (strIndexChar rest c + 1).toNat + 1 := by omega
          rw [harith] at hd
          simp only [List.drop_succ_cons] at hd
          have hrest : rest ≠ [] := by
            intro hn; rw [hn] at h1; simp at h1; omega
          have := ih hne hd
          rw [← this]
          match rest, hrest with
          | b :: t, _ => simp [List.getLast?_cons_cons]

theorem strLastIndexChar_bounds (s : List Char) (c : Char) :
    -1 ≤ strLastIndexChar s c ∧ strLastIndexChar s c < s.length := by
  induction s with
  | nil => simp [strLastIndexChar]
  | cons a rest ih =>
      simp only [strLastIndexChar, List.length_cons]
      by_cases h : strLastIndexChar rest c = -1
      · by_cases hac : a = c <;> simp [h, hac] <;> omega
      · simp only [h, if_false]
        push_cast
        omega

theorem strLastIndexChar_neg_iff (s : List Char) (c : Char) :
    strLastIndexChar s c = -1 ↔ c ∉ s := by
  induction s with
  | nil => simp [strLastIndexChar]
  | cons a rest ih =>
      simp only [strLastIndexChar, List.mem_cons]
      by_cases h : strLastIndexChar rest c = -1
      · by_cases hac : a = c
        · subst hac
          simp [h, ih.mp h]
        · simp [h, hac, ih.mp h, Ne.symm hac]
      · have hb := strLastIndexChar_bounds rest c
        have hmem : c ∈ rest := by
          by_contra hn
          exact h (ih.mpr hn)
        constructor
        · intro he; simp [h] at he; omega
        · intro hn; exact absurd (Or.inr hmem) hn

theorem strLastIndexChar_pos_mem (s : List Char) (c : Char)
    (h : strLastIndexChar s c ≠ -1) : c ∈ s := by
  by_contra hn
  exact h ((strLastIndexChar_neg_iff s c).mpr hn)

theorem strLastIndexChar_cons (a : Char) (rest : List Char) (c : Char) :
    strLastIndexChar (a :: rest) c =
      if strLastIndexChar rest c = -1 then (if a = c then 0 else -1)
      else strLastIndexChar rest c + 1 := rfl

theorem getLast?_mem_of_eq (l : List Char) (a : Char) (h : l.getLast? = some a) : a ∈ l := by
  induction l with
  | nil => simp at h
  | cons x rest ih =>
      match rest with
      | [] =>
          simp only [List.getLast?_singleton, Option.some.injEq] at h
          simp [h]
      | b :: t =>
          rw [List.getLast?_cons_cons] at h
          exact List.mem_cons_of_mem x (ih h)

theorem strLastIndexChar_last_iff (s : List Char) (c : Char) (hs : s ≠ []) :
    strLastIndexChar s c = (s.length : Int) - 1 ↔ s.getLast? = some c := by
  induction s with
  | nil => exact absurd rfl hs
  | cons a rest ih =>
      match rest with
      | [] =>
          rw [strLastIndexChar_cons]
          constructor
          · intro he
            by_cases hac : a = c
            · simp [hac]
            · rw [strLastIndexChar, if_pos rfl, if_neg hac] at he
              norm_num at he
          · intro he
            have hac : a = c := by
              simpa only [List.getLast?_singleton, Option.some.injEq] using he
            rw [strLastIndexChar, if_pos rfl, if_pos hac]
            norm_num
      | b :: t =>
          have hrest : (b :: t : List Char) ≠ [] := by simp
          have hb := strLastIndexChar_bounds (b :: t) c
          rw [List.getLast?_cons_cons, strLastIndexChar_cons]
          by_cases h : strLastIndexChar (b :: t) c = -1
          · have hnot : c ∉ b :: t := (strLastIndexChar_neg_iff _ c).mp h
            have hlen : 1 ≤ (b :: t).length := by simp
            constructor
            · intro he
              exfalso
              by_cases hac : a = c
              · rw [if_pos h, if_pos hac] at he
                simp only [List.length_cons] at he
                omega
              · rw [if_pos h, if_neg hac] at he
                simp only [List.length_cons] at he
                omega
            · intro he
              exact absurd (getLast?_mem_of_eq _ _ he) hnot
          · rw [if_neg h, ← ih hrest]
            simp only [List.length_cons]
            constructor <;> intro he <;> omega

theorem strLastIndexChar_drop_not_mem (s : List Char) (c : Char) :
    c ∉ s.drop ((strLastIndexChar s c) + 1).toNat := by
  induction s with
  | nil => simp
  | cons a rest ih =>
      simp only [strLastIndexChar]
      by_cases h : strLastIndexChar rest c = -1
      · by_cases hac : a = c
        · simp only [h, hac, if_pos rfl, if_true]
          norm_num
          exact (strLastIndexChar_neg_iff rest c).mp h
        · simp only [h, hac, if_false, if_true]
          norm_num
          exact ⟨Ne.symm hac, (strLastIndexChar_neg_iff rest c).mp h⟩
      · simp only [h, if_false]
        have hb := strLastIndexChar_bounds rest c
        have harith : ((strLastIndexChar rest c + 1) + 1).toNat
            = (strLastIndexChar rest c + 1).toNat + 1 := by omega
        rw [harith, List.drop_succ_cons]
        exact ih

theorem strLastIndexChar_drop_suffix (s : List Char) (c : Char) :
    s.drop ((strLastIndexChar s c) + 1).toNat = s ∨
      (c :: s.drop ((strLastIndexChar s c) + 1).toNat) <:+ s := by
  induction s with
  | nil => left; simp
  | cons a rest ih =>
      simp only [strLastIndexChar]
      by_cases h : strLastIndexChar rest c = -1
      · by_cases hac : a = c
        · right
          simp only [h, hac, if_pos rfl, if_true]
          norm_num
        · left
          simp only [h, hac, if_false, if_true]
          norm_num
      · simp only [h, if_false]
        have hb := strLastIndexChar_bounds rest c
        have hmem : c ∈ rest := strLastIndexChar_pos_mem rest c h
        have harith : ((strLastIndexChar rest c + 1) + 1).toNat
            = (strLastIndexChar rest c + 1).toNat + 1 := by omega
        rw [harith, List.drop_succ_cons]
        rcases ih with h1 | h1
        · exact absurd (h1 ▸ strLastIndexChar_drop_not_mem rest c) (by simp [hmem])
        · right
          exact h1.trans (List.suffix_cons a rest)

theorem removeDots_ne_nil (s : List Char) (hs : s ≠ []) (hl : s.getLast? ≠ some '.') :
    removeDots s ≠ [] := by
  have hex : ∃ a, s.getLast? = some a := by
    match s, hs with
    | x :: rest, _ => exact ⟨(x :: rest).getLast (by simp), List.getLast?_eq_getLast_of_ne_nil _⟩
  obtain ⟨a, ha⟩ := hex
  have hadot : a ≠ '.' := fun he => hl (he ▸ ha)
  have hmem : a ∈ removeDots s :=
    List.mem_filter.mpr ⟨getLast?_mem_of_eq s a ha, by simp [hadot]⟩
  intro hn
  rw [hn] at hmem
  exact absurd hmem (List.not_mem_nil a)

theorem getLast?_of_suffix (l₁ l₂ : List Char) (h : l₁ <:+ l₂) (hne : l₁ ≠ []) :
    l₂.getLast? = l₁.getLast? := by
  obtain ⟨t, rfl⟩ := h
  exact List.getLast?_append_of_ne_nil t hne

/-- Every entry produced by the decomposition loop is a nonempty dotted
suffix of its input whose signature is its dotted value without dots,
provided the input does not end in a dot. -/
theorem decomposeFuel_spec (fuel : Nat) (name : List Char)
    (hl : name.getLast? ≠ some '.') :
    ∀ sub ∈ decomposeFuel fuel name,
      sub.name = removeDots sub.dottedName ∧ sub.dottedName ≠ [] ∧
      sub.dottedName <:+ name ∧ sub.dottedName.getLast? = name.getLast? := by
  induction fuel generalizing name with
  | zero => intro sub hsub; simp [decomposeFuel] at hsub
  | succ fuel ih =>
      intro sub hsub
      rw [decomposeFuel] at hsub
      by_cases h : strIndexChar name '.' = -1
      · simp [h] at hsub
      · simp only [h, if_false, List.mem_cons] at hsub
        have hrest_ne : name.drop ((strIndexChar name '.') + 1).toNat ≠ [] := by
          intro hn
          exact hl (strIndexChar_drop_nil name '.' h hn)
        have hsuf : name.drop ((strIndexChar name '.') + 1).toNat <:+ name :=
          List.drop_suffix _ _
        have hlast : (name.drop ((strIndexChar name '.') + 1).toNat).getLast? =
            name.getLast? := (getLast?_of_suffix _ _ hsuf hrest_ne).symm
        rcases hsub with hsub | hsub
        · subst hsub
          exact ⟨rfl, hrest_ne, hsuf, hlast⟩
        · have hl' : (name.drop ((strIndexChar name '.') + 1).toNat).getLast? ≠ some '.' := by
            rw [hlast]; exact hl
          obtain ⟨h1, h2, h3, h4⟩ := ih _ hl' sub hsub
          exact ⟨h1, h2, h3.trans hsuf, h4.trans hlast⟩

/-- Every decomposition level of a domain that is nonempty and does not
end in a dot has a nonempty dotted value (not ending in a dot), a
nonempty signature, and is a suffix of the domain. -/
theorem decomposeDomain_spec (domain : List Char) (hne : domain ≠ [])
    (hl : domain.getLast? ≠ some '.') :
    ∀ sub ∈ decomposeDomain domain,
      sub.name = removeDots sub.dottedName ∧ sub.dottedName ≠ [] ∧
      sub.dottedName <:+ domain ∧ sub.dottedName.getLast? ≠ some '.' ∧
      sub.name ≠ [] := by
  intro sub hsub
  rw [decomposeDomain, List.mem_cons] at hsub
  rcases hsub with hsub | hsub
  · subst hsub
    exact ⟨rfl, hne, List.suffix_refl domain, hl,
      removeDots_ne_nil domain hne hl⟩
  · obtain ⟨h1, h2, h3, h4⟩ := decomposeFuel_spec domain.length domain hl sub hsub
    have h4' : sub.dottedName.getLast? ≠ some '.' := by rw [h4]; exact hl
    exact ⟨h1, h2, h3, h4', h1 ▸ removeDots_ne_nil _ h2 h4'⟩

/-- A domain passing the trailing-dot guard of `searchList` is nonempty
and does not end in a dot. -/
theorem guard_false_iff (domain : List Char)
    (h : ¬ strLastIndexChar domain '.' = (domain.length : Int) - 1) :
    domain ≠ [] ∧ domain.getLast? ≠ some '.' := by
  constructor
  · intro hn
    subst hn
    exact h rfl
  · intro hlast
    have hne : domain ≠ [] := by
      intro hn; rw [hn] at hlast; simp at hlast
    exact h ((strLastIndexChar_last_iff domain '.' hne).mpr hlast)

theorem validLine_ne_nil (s : List Char) (h : validLine s = true) : s ≠ [] := by
  unfold validLine at h
  rw [Bool.and_eq_true] at h
  exact of_decide_eq_true h.1

theorem goStartsWith_one (s : List Char) (a : Char) (h : goStartsWith s [a] = true) :
    ∃ t, s = a :: t := by
  unfold goStartsWith at h
  have h' := of_decide_eq_true h
  match s with
  | [] => simp at h'
  | x :: t =>
      simp only [List.length_singleton, List.take_succ_cons, List.take_zero,
        List.cons.injEq, and_true] at h'
      exact ⟨t, by rw [h']⟩

theorem removeDots_length_le (s : List Char) : (removeDots s).length ≤ s.length :=
  List.length_filter_le _ s

theorem mapLookup_mapAppend_same (m : List (List Char × List Rule)) (k : List Char) (r : Rule) :
    mapLookup (mapAppend m k r) k = some ((mapLookup m k).getD [] ++ [r]) := by
  induction m with
  | nil => simp [mapAppend, mapLookup]
  | cons kv rest ih =>
      obtain ⟨k0, v0⟩ := kv
      by_cases h : k0 = k
      · subst h
        simp [mapAppend, mapLookup]
      · simp [mapAppend, mapLookup, h, ih]

theorem mapLookup_mapAppend_ne (m : List (List Char × List Rule)) (k k' : List Char) (r : Rule)
    (h : k' ≠ k) : mapLookup (mapAppend m k r) k' = mapLookup m k' := by
  induction m with
  | nil => simp [mapAppend, mapLookup, Ne.symm h]
  | cons kv rest ih =>
      obtain ⟨k0, v0⟩ := kv
      by_cases h0 : k0 = k
      · subst h0
        simp [mapAppend, mapLookup, Ne.symm h]
      · by_cases h1 : k0 = k'
        · subst h1
          simp [mapAppend, mapLookup, h0]
        · simp [mapAppend, mapLookup, h0, h1, ih]

theorem mapAppend_wf (m : List (List Char × List Rule)) (k : List Char) (r : Rule)
    (hm : MapWF m) (hr : RuleWF k r) : MapWF (mapAppend m k r) := by
  induction m with
  | nil =>
      intro kv hkv r' hr'
      simp only [mapAppend, List.mem_singleton] at hkv
      subst hkv
      simp only [List.mem_singleton] at hr'
      subst hr'
      exact hr
  | cons kv0 rest ih =>
      obtain ⟨k0, v0⟩ := kv0
      have hm0 : ∀ r' ∈ v0, RuleWF k0 r' := fun r' h' => hm (k0, v0) (by simp) r' h'
      have hmrest : MapWF rest := fun kv h' => hm kv (List.mem_cons_of_mem _ h')
      by_cases h : k0 = k
      · intro kv hkv r' hr'
        have hstep : mapAppend ((k0, v0) :: rest) k r = (k0, v0 ++ [r]) :: rest := by
          show (if k0 = k then (k0, v0 ++ [r]) :: rest else (k0, v0) :: mapAppend rest k r) = _
          rw [if_pos h]
        rw [hstep, List.mem_cons] at hkv
        rcases hkv with hkv | hkv
        · subst hkv
          simp only [List.mem_append, List.mem_singleton] at hr'
          rcases hr' with hr' | hr'
          · exact hm0 r' hr'
          · subst hr'
            rw [h]
            exact hr
        · exact hmrest kv hkv r' hr'
      · intro kv hkv r' hr'
        have hstep : mapAppend ((k0, v0) :: rest) k r = (k0, v0) :: mapAppend rest k r := by
          show (if k0 = k then (k0, v0 ++ [r]) :: rest else (k0, v0) :: mapAppend rest k r) = _
          rw [if_neg h]
        rw [hstep, List.mem_cons] at hkv
        rcases hkv with hkv | hkv
        · subst hkv
          exact hm0 r' hr'
        · exact ih hmrest kv hkv r' hr'

theorem processLine_wf (toA : List Char → Option (List Char)) (st st' : ScanState)
    (line : List Char) (h : processLine toA st line = some st') (hm : MapWF st.map) :
    MapWF st'.map := by
  simp only [processLine] at h
  split at h
  · cases h; exact hm
  · split at h
    · cases h; exact hm
    · split at h
      · cases h; exact hm
      · split at h
        · exact absurd h (by simp)
        · rename_i conv hconv
          split at h
          · exact absurd h (by simp)
          · rename_i hvalid
            have hne : conv ≠ [] := by
              apply validLine_ne_nil
              revert hvalid
              cases validLine conv <;> simp
            split at h
            · rename_i hstar
              cases h
              apply mapAppend_wf _ _ _ hm
              exact ⟨hne, hstar, rfl⟩
            · split at h
              · rename_i hbang
                cases h
                apply mapAppend_wf _ _ _ hm
                exact ⟨hne, hbang, rfl⟩
              · cases h
                apply mapAppend_wf _ _ _ hm
                exact ⟨hne, rfl⟩

theorem foldlM_processLine_wf (toA : List Char → Option (List Char))
    (lines : List (List Char)) :
    ∀ st st', lines.foldlM (processLine toA) st = some st' → MapWF st.map →
      MapWF st'.map := by
  induction lines with
  | nil =>
      intro st st' h hm
      rw [List.foldlM_nil] at h
      cases h
      exact hm
  | cons l rest ih =>
      intro st st' h hm
      rw [List.foldlM_cons] at h
      cases hpl : processLine toA st l with
      | none => rw [hpl] at h; simp at h
      | some st1 =>
          rw [hpl] at h
          simp only [Option.bind_eq_bind, Option.some_bind] at h
          exact ih st1 st' h (processLine_wf toA st st1 l hpl hm)

theorem newList_wf (toA : List Char → Option (List Char)) (lines : List (List Char))
    (release : List Char) (info : RulesInfo)
    (h : newList toA lines release = some info) : MapWF info.map := by
  unfold newList at h
  cases hf : lines.foldlM (processLine toA) ⟨false, []⟩ with
  | none => rw [hf] at h; simp at h
  | some st =>
      rw [hf] at h
      simp only [Option.map_some'] at h
      cases h
      have hinit : MapWF (⟨false, []⟩ : ScanState).map := by
        intro kv hkv
        simp at hkv
      exact foldlM_processLine_wf toA lines ⟨false, []⟩ st hf hinit

theorem mapLookup_wf (m : List (List Char × List Rule)) (key : List Char)
    (rules : List Rule) (hm : MapWF m) (h : mapLookup m key = some rules) :
    ∀ r ∈ rules, RuleWF key r := by
  induction m with
  | nil => simp [mapLookup] at h
  | cons kv rest ih =>
      obtain ⟨k0, v0⟩ := kv
      by_cases h0 : k0 = key
      · subst h0
        rw [mapLookup, if_pos rfl] at h
        cases h
        exact fun r hr => hm (k0, rules) (by simp) r hr
      · rw [mapLookup, if_neg h0] at h
        exact ih (fun kv h' => hm kv (List.mem_cons_of_mem _ h')) h

theorem RuleWF_wildcard_two_le (key : List Char) (r : Rule) (h : RuleWF key r)
    (ht : r.ruleType = .wildcard) (hk : key ≠ []) : 2 ≤ r.dottedName.length := by
  obtain ⟨-, h2⟩ := h
  rw [ht] at h2
  obtain ⟨hstar, hkey⟩ := h2
  obtain ⟨t, hc⟩ := goStartsWith_one _ _ hstar
  have htne : t ≠ [] := by
    intro hn
    apply hk
    rw [hkey, hc, hn]
    rfl
  have : 2 ≤ (removeDots r.dottedName).length := by
    rw [hc]
    simp only [List.length_cons]
    have : 1 ≤ t.length := List.length_pos.mpr htne
    omega
  exact le_trans this (removeDots_length_le _)

theorem sliceFrom?_pos (s : List Char) (i : Int) (h0 : 0 ≤ i) (h1 : i ≤ s.length) :
    sliceFrom? s i = some (s.drop i.toNat) := by
  unfold sliceFrom?
  rw [if_pos ⟨h0, h1⟩]

theorem sliceTo?_pos (s : List Char) (i : Int) (h0 : 0 ≤ i) (h1 : i ≤ s.length) :
    sliceTo? s i = some (s.take i.toNat) := by
  unfold sliceTo?
  rw [if_pos ⟨h0, h1⟩]

theorem charAt?_pos (s : List Char) (i : Int) (h0 : 0 ≤ i) (h1 : i < s.length) :
    charAt? s i = some (s.getD i.toNat ' ') := by
  unfold charAt?
  rw [if_pos ⟨h0, h1⟩]

theorem getD_zero_headD (l : List Char) : l.getD 0 ' ' = l.headD ' ' := by
  cases l <;> rfl

theorem wildcardWalk_bounds (domain : List Char) (n : Nat) :
    ∀ dot : Int, -1 ≤ dot → dot < domain.length →
      -1 ≤ wildcardWalk domain n dot ∧ wildcardWalk domain n dot < domain.length := by
  induction n with
  | zero => intro dot h0 h1; exact ⟨h0, h1⟩
  | succ n ih =>
      intro dot h0 h1
      rw [wildcardWalk]
      by_cases h : dot = -1
      · rw [if_pos h]; exact ⟨h0, h1⟩
      · rw [if_neg h]
        have hb := strLastIndexChar_bounds (domain.take dot.toNat) '.'
        have hlen : (domain.take dot.toNat).length ≤ domain.length := by
          rw [List.length_take]; omega
        exact ih _ hb.1 (by omega)

theorem wildcardWalkChecked_eq (domain : List Char) (n : Nat) :
    ∀ dot : Int, -1 ≤ dot → dot < domain.length →
      wildcardWalkChecked domain n dot = some (wildcardWalk domain n dot) := by
  induction n with
  | zero => intro dot h0 h1; rfl
  | succ n ih =>
      intro dot h0 h1
      rw [wildcardWalkChecked, wildcardWalk]
      by_cases h : dot = -1
      · rw [if_pos h, if_pos h]
      · rw [if_neg h, if_neg h]
        rw [sliceTo?_pos domain dot (by omega) (by omega)]
        have hb := strLastIndexChar_bounds (domain.take dot.toNat) '.'
        have hlen : (domain.take dot.toNat).length ≤ domain.length := by
          rw [List.length_take]; omega
        exact ih _ hb.1 (by omega)

theorem searchRulesChecked_eq (domain : List Char) (sub : Subdomain)
    (hdom : domain ≠ []) (hkey : sub.name ≠ []) :
    ∀ rules : List Rule, (∀ r ∈ rules, RuleWF sub.name r) →
      searchRulesChecked domain sub rules = some (searchRules domain sub rules) := by
  intro rules
  induction rules with
  | nil => intro _; rfl
  | cons r rest ih =>
      intro hwf
      have hr : RuleWF sub.name r := hwf r (by simp)
      have hrest : ∀ r' ∈ rest, RuleWF sub.name r' := fun r' h' =>
        hwf r' (List.mem_cons_of_mem r h')
      have hdn : r.dottedName ≠ [] := hr.1
      have hdlen : 1 ≤ domain.length := List.length_pos.mpr hdom
      obtain ⟨dn, rt, ic⟩ := r
      cases rt with
      | wildcard =>
          have h2 : 2 ≤ dn.length :=
            RuleWF_wildcard_two_le sub.name ⟨dn, .wildcard, ic⟩ hr rfl hkey
          rw [searchRules, searchRulesChecked]
          simp only
          rw [sliceFrom?_pos dn 2 (by omega) (by exact_mod_cast h2)]
          show ((if goHasSuffix sub.dottedName (dn.drop (2 : Int).toNat) = false then
              searchRulesChecked domain sub rest else _) = _)
          have h2nat : ((2 : Int)).toNat = 2 := rfl
          rw [h2nat]
          by_cases hsuf : goHasSuffix sub.dottedName (dn.drop 2) = false
          · rw [if_pos hsuf, if_pos hsuf]
            exact ih hrest
          · rw [if_neg hsuf, if_neg hsuf]
            by_cases hlt : domain.length < dn.length
            · rw [if_pos hlt, if_pos hlt]
              rw [charAt?_pos domain 0 le_rfl (by exact_mod_cast hdlen)]
              rw [sliceFrom?_pos dn 1 (by omega) (by omega)]
              have h0nat : ((0 : Int)).toNat = 0 := rfl
              have h1nat : ((1 : Int)).toNat = 1 := rfl
              rw [h0nat, h1nat, getD_zero_headD]
              show (if domain.headD ' ' = '.' ∧ domain = dn.drop 1 then
                  some (some (domain, ic, true)) else searchRulesChecked domain sub rest) = _
              by_cases hcorner : domain.headD ' ' = '.' ∧ domain = dn.drop 1
              · rw [if_pos hcorner, if_pos hcorner]
              · rw [if_neg hcorner, if_neg hcorner]
                exact ih hrest
            · rw [if_neg hlt, if_neg hlt]
              have hw := wildcardWalk_bounds domain (countChar dn '.' + 1)
                ((domain.length : Int) - 1) (by omega) (by omega)
              rw [wildcardWalkChecked_eq domain (countChar dn '.' + 1)
                ((domain.length : Int) - 1) (by omega) (by omega)]
              show (match sliceFrom? domain
                    ((wildcardWalk domain (countChar dn '.' + 1)
                      ((domain.length : Int) - 1)) + 1) with
                  | none => none
                  | some suffix => some (some (suffix, ic, true))) = _
              rw [sliceFrom?_pos domain _ (by omega) (by omega)]
      | exception =>
          have hdn' : dn ≠ [] := hdn
          have hdnlen : 1 ≤ dn.length := List.length_pos.mpr hdn'
          rw [searchRules, searchRulesChecked]
          simp only
          rw [sliceFrom?_pos dn 1 (by omega) (by omega)]
          have h1nat : ((1 : Int)).toNat = 1 := rfl
          rw [h1nat]
          show (if goHasSuffix sub.dottedName (dn.drop 1) = false then
              searchRulesChecked domain sub rest
            else
              match sliceFrom? dn ((strIndexChar dn '.') + 1) with
              | none => none
              | some suffix => some (some (suffix, ic, true))) = _
          by_cases hsuf : goHasSuffix sub.dottedName (dn.drop 1) = false
          · rw [if_pos hsuf, if_pos hsuf]
            exact ih hrest
          · rw [if_neg hsuf, if_neg hsuf]
            have hb := strIndexChar_bounds dn '.'
            rw [sliceFrom?_pos dn _ (by omega) (by omega)]
      | normal =>
          rw [searchRules, searchRulesChecked]
          simp only
          by_cases hsuf : goHasSuffix sub.dottedName dn = false
          · rw [if_pos hsuf, if_pos hsuf]
            exact ih hrest
          · rw [if_neg hsuf, if_neg hsuf]

theorem searchLevelsChecked_eq (m : List (List Char × List Rule)) (domain : List Char)
    (hdom : domain ≠ []) (hm : MapWF m) :
    ∀ subs : List Subdomain, (∀ sub ∈ subs, sub.name ≠ []) →
      searchLevelsChecked m domain subs = some (searchLevels m domain subs) := by
  intro subs
  induction subs with
  | nil => intro _; rfl
  | cons sub rest ih =>
      intro hsubs
      have hkey : sub.name ≠ [] := hsubs sub (by simp)
      have hrest : ∀ s ∈ rest, s.name ≠ [] := fun s h' => hsubs s (List.mem_cons_of_mem _ h')
      rw [searchLevels, searchLevelsChecked]
      cases hlk : mapLookup m sub.name with
      | none => exact ih hrest
      | some rules =>
          have hwf : ∀ r ∈ rules, RuleWF sub.name r := mapLookup_wf m sub.name rules hm hlk
          show (match searchRulesChecked domain sub rules with
              | none => none
              | some (some res) => some (some res)
              | some none => searchLevelsChecked m domain rest) =
            some (match searchRules domain sub rules with
              | some res => some res
              | none => searchLevels m domain rest)
          rw [searchRulesChecked_eq domain sub hdom hkey rules hwf]
          cases hsr : searchRules domain sub rules with
          | none =>
              show searchLevelsChecked m domain rest = _
              exact ih hrest
          | some res => rfl

/-- On a table built by `newList`, the checked resolver never hits an
out-of-bounds index or slice and agrees with the plain model. -/
theorem searchListChecked_eq (toA : List Char → Option (List Char))
    (lines : List (List Char)) (release : List Char) (info : RulesInfo)
    (hinfo : newList toA lines release = some info) (domain : List Char) :
    searchListChecked info domain = some (searchList info domain) := by
  rw [searchList, searchListChecked]
  by_cases hguard : strLastIndexChar domain '.' = (domain.length : Int) - 1
  · rw [if_pos hguard, if_pos hguard]
  · rw [if_neg hguard, if_neg hguard]
    obtain ⟨hne, hlast⟩ := guard_false_iff domain hguard
    have hsubs : ∀ sub ∈ decomposeDomain domain, sub.name ≠ [] := fun sub h' =>
      (decomposeDomain_spec domain hne hlast sub h').2.2.2.2
    have hm : MapWF info.map := newList_wf toA lines release info hinfo
    rw [searchLevelsChecked_eq info.map domain hne hm (decomposeDomain domain) hsubs]
    cases hlv : searchLevels info.map domain (decomposeDomain domain) with
    | some res => rfl
    | none =>
        show (match sliceFrom? domain ((strLastIndexChar domain '.') + 1) with
            | none => none
            | some l => some (l, false, false)) = _
        have hb := strLastIndexChar_bounds domain '.'
        rw [sliceFrom?_pos domain _ (by omega) (by omega)]

/-- A rule that is not structurally applicable is skipped and the search
continues with the remaining candidates. -/
theorem searchRules_skip (domain : List Char) (sub : Subdomain) (r : Rule) (rest : List Rule)
    (h : isApplicable domain sub r = false) :
    searchRules domain sub (r :: rest) = searchRules domain sub rest := by
  obtain ⟨dn, rt, ic⟩ := r
  cases rt with
  | wildcard =>
      rw [isApplicable] at h
      simp only at h
      rw [Bool.and_eq_false_iff] at h
      rw [searchRules]
      simp only
      by_cases hsuf : goHasSuffix sub.dottedName (dn.drop 2) = false
      · rw [if_pos hsuf]
      · rw [if_neg hsuf]
        rcases h with h | h
        · exact absurd h (by revert hsuf; cases goHasSuffix sub.dottedName (dn.drop 2) <;> simp)
        · rw [Bool.or_eq_false_iff] at h
          obtain ⟨h1, h2⟩ := h
          have hlt : domain.length < dn.length := by
            have := of_decide_eq_false h1
            omega
          rw [if_pos hlt]
          rw [Bool.and_eq_false_iff] at h2
          have hcorner : ¬(domain.headD ' ' = '.' ∧ domain = dn.drop 1) := by
            intro hc
            rcases h2 with h2 | h2
            · exact absurd hc.1 (of_decide_eq_false h2)
            · exact absurd hc.2 (of_decide_eq_false h2)
          rw [if_neg hcorner]
  | exception =>
      rw [isApplicable] at h
      simp only at h
      rw [searchRules]
      simp only
      rw [if_pos h]
  | normal =>
      rw [isApplicable] at h
      simp only at h
      rw [searchRules]
      simp only
      rw [if_pos h]

/-- A rule list none of whose rules is applicable yields no result. -/
theorem searchRules_none_of (domain : List Char) (sub : Subdomain) :
    ∀ rules : List Rule, (∀ r ∈ rules, isApplicable domain sub r = false) →
      searchRules domain sub rules = none := by
  intro rules
  induction rules with
  | nil => intro _; rfl
  | cons r rest ih =>
      intro h
      rw [searchRules_skip domain sub r rest (h r (by simp))]
      exact ih fun r' h' => h r' (List.mem_cons_of_mem r h')

/-- If no level carries an applicable rule, the whole level loop yields
no result. -/
theorem searchLevels_none_of (m : List (List Char × List Rule)) (domain : List Char) :
    ∀ subs : List Subdomain,
      (∀ sub ∈ subs, ∀ r ∈ (mapLookup m sub.name).getD [], isApplicable domain sub r = false) →
      searchLevels m domain subs = none := by
  intro subs
  induction subs with
  | nil => intro _; rfl
  | cons sub rest ih =>
      intro h
      rw [searchLevels]
      have hrest : ∀ s ∈ rest, ∀ r ∈ (mapLookup m s.name).getD [], isApplicable domain s r = false :=
        fun s h' => h s (List.mem_cons_of_mem _ h')
      cases hlk : mapLookup m sub.name with
      | none => exact ih hrest
      | some rules =>
          have hr : ∀ r ∈ rules, isApplicable domain sub r = false := by
            intro r hmem
            have := h sub (by simp) r
            rw [hlk] at this
            exact this hmem
          show (match searchRules domain sub rules with
              | some res => some res
              | none => searchLevels m domain rest) = none
          rw [searchRules_none_of domain sub rules hr]
          exact ih hrest

/-- The level loop returns the result of the first (most specific) group
of levels that produces one: later levels cannot change it. -/
theorem searchLevels_mono (m : List (List Char × List Rule)) (domain : List Char) :
    ∀ (pre post : List Subdomain) (res : SearchResult),
      searchLevels m domain pre = some res →
      searchLevels m domain (pre ++ post) = some res := by
  intro pre
  induction pre with
  | nil => intro post res h; exact absurd h (by simp [searchLevels])
  | cons sub rest ih =>
      intro post res h
      rw [searchLevels] at h
      rw [List.cons_append, searchLevels]
      cases hlk : mapLookup m sub.name with
      | none =>
          rw [hlk] at h
          replace h : searchLevels m domain rest = some res := h
          show searchLevels m domain (rest ++ post) = some res
          exact ih post res h
      | some rules =>
          rw [hlk] at h
          replace h : (match searchRules domain sub rules with
              | some r => some r
              | none => searchLevels m domain rest) = some res := h
          show (match searchRules domain sub rules with
              | some r => some r
              | none => searchLevels m domain (rest ++ post)) = some res
          cases hsr : searchRules domain sub rules with
          | none =>
              rw [hsr] at h
              replace h : searchLevels m domain rest = some res := h
              show searchLevels m domain (rest ++ post) = some res
              exact ih post res h
          | some res' =>
              rw [hsr] at h
              exact h

/-- A structurally applicable exception rule returns immediately with the
rule's dotted name truncated after its first label, the `found` flag set,
and the rule's ICANN flag. -/
theorem searchRules_exception_hit (domain : List Char) (sub : Subdomain) (r : Rule)
    (rest : List Rule) (ht : r.ruleType = .exception)
    (hs : goHasSuffix sub.dottedName (r.dottedName.drop 1) = true) :
    searchRules domain sub (r :: rest) =
      some (r.dottedName.drop ((strIndexChar r.dottedName '.') + 1).toNat, r.icann, true) := by
  obtain ⟨dn, rt, ic⟩ := r
  cases ht
  rw [searchRules]
  simp only
  rw [if_neg (by rw [hs]; simp)]

/-- A wildcard rule whose pattern is longer than the queried domain is
skipped unless the domain equals the pattern with the wildcard segment
empty. -/
theorem searchRules_wildcard_short_skip (domain : List Char) (sub : Subdomain) (r : Rule)
    (rest : List Rule) (ht : r.ruleType = .wildcard)
    (hlt : domain.length < r.dottedName.length)
    (hcorner : ¬(domain.headD ' ' = '.' ∧ domain = r.dottedName.drop 1)) :
    searchRules domain sub (r :: rest) = searchRules domain sub rest := by
  obtain ⟨dn, rt, ic⟩ := r
  cases ht
  rw [searchRules]
  simp only
  by_cases hsuf : goHasSuffix sub.dottedName (dn.drop 2) = false
  · rw [if_pos hsuf]
  · rw [if_neg hsuf, if_pos hlt, if_neg hcorner]

/-- The degenerate wildcard case: the domain equals the pattern with the
wildcard segment empty and is returned unchanged. -/
theorem searchRules_wildcard_degenerate (domain : List Char) (sub : Subdomain) (r : Rule)
    (rest : List Rule) (ht : r.ruleType = .wildcard)
    (hs : goHasSuffix sub.dottedName (r.dottedName.drop 2) = true)
    (hlt : domain.length < r.dottedName.length)
    (hdot : domain.headD ' ' = '.') (heq : domain = r.dottedName.drop 1) :
    searchRules domain sub (r :: rest) = some (domain, r.icann, true) := by
  obtain ⟨dn, rt, ic⟩ := r
  cases ht
  rw [searchRules]
  simp only
  rw [if_neg (by rw [hs]; simp), if_pos hlt, if_pos ⟨hdot, heq⟩]

theorem pairsFor_append_one (k : List Char) (prs : List (List Char × Rule))
    (p : List Char × Rule) :
    pairsFor k (prs ++ [p]) = pairsFor k prs ++ (if p.1 = k then [p.2] else []) := by
  unfold pairsFor
  rw [List.filter_append]
  by_cases h : p.1 = k
  · simp [h]
  · simp [h]

theorem mapAppend_pairs (m : List (List Char × List Rule)) (k : List Char) (r : Rule)
    (k' : List Char) :
    (mapLookup (mapAppend m k r) k').getD [] =
      (mapLookup m k').getD [] ++ (if k = k' then [r] else []) := by
  by_cases h : k' = k
  · subst h
    rw [mapLookup_mapAppend_same, if_pos rfl]
    rfl
  · rw [mapLookup_mapAppend_ne m k k' r h, if_neg (fun he => h he.symm)]
    simp

theorem processLine_pair_rel (toA : List Char → Option (List Char)) (line : List Char)
    (flag : Bool) (m : List (List Char × List Rule)) (prs : List (List Char × Rule))
    (hrel : ∀ k, (mapLookup m k).getD [] = pairsFor k prs) :
    (processLine toA ⟨flag, m⟩ line = none ∧ processLinePair toA ⟨flag, prs⟩ line = none) ∨
    (∃ flag' m' prs', processLine toA ⟨flag, m⟩ line = some ⟨flag', m'⟩ ∧
      processLinePair toA ⟨flag, prs⟩ line = some ⟨flag', prs'⟩ ∧
      ∀ k, (mapLookup m' k).getD [] = pairsFor k prs') := by
  rw [processLine, processLinePair]
  simp only
  by_cases h1 : goContains (trimSpace line) icannBeginMarker = true
  · rw [if_pos h1, if_pos h1]
    exact Or.inr ⟨true, m, prs, rfl, rfl, hrel⟩
  · rw [if_neg h1, if_neg h1]
    by_cases h2 : goContains (trimSpace line) icannEndMarker = true
    · rw [if_pos h2, if_pos h2]
      exact Or.inr ⟨false, m, prs, rfl, rfl, hrel⟩
    · rw [if_neg h2, if_neg h2]
      by_cases h3 : trimSpace line = [] ∨ goStartsWith (trimSpace line) "//".data = true
      · rw [if_pos h3, if_pos h3]
        exact Or.inr ⟨flag, m, prs, rfl, rfl, hrel⟩
      · rw [if_neg h3, if_neg h3]
        cases hconv : toA (trimSpace line) with
        | none => exact Or.inl ⟨rfl, rfl⟩
        | some conv =>
            simp only
            by_cases h4 : validLine conv = false
            · rw [if_pos h4, if_pos h4]
              exact Or.inl ⟨rfl, rfl⟩
            · rw [if_neg h4, if_neg h4]
              by_cases h5 : goStartsWith (removeDots conv) "*".data = true
              · rw [if_pos h5, if_pos h5]
                refine Or.inr ⟨flag, _, _, rfl, rfl, fun k => ?_⟩
                rw [mapAppend_pairs, pairsFor_append_one, hrel k]
              · rw [if_neg h5, if_neg h5]
                by_cases h6 : goStartsWith (removeDots conv) "!".data = true
                · rw [if_pos h6, if_pos h6]
                  refine Or.inr ⟨flag, _, _, rfl, rfl, fun k => ?_⟩
                  rw [mapAppend_pairs, pairsFor_append_one, hrel k]
                · rw [if_neg h6, if_neg h6]
                  refine Or.inr ⟨flag, _, _, rfl, rfl, fun k => ?_⟩
                  rw [mapAppend_pairs, pairsFor_append_one, hrel k]

theorem foldlM_pair_rel (toA : List Char → Option (List Char)) :
    ∀ (lines : List (List Char)) (flag : Bool) (m : List (List Char × List Rule))
      (prs : List (List Char × Rule)),
      (∀ k, (mapLookup m k).getD [] = pairsFor k prs) →
      (lines.foldlM (processLine toA) ⟨flag, m⟩ = none ∧
        lines.foldlM (processLinePair toA) ⟨flag, prs⟩ = none) ∨
      (∃ flag' m' prs',
        lines.foldlM (processLine toA) ⟨flag, m⟩ = some ⟨flag', m'⟩ ∧
        lines.foldlM (processLinePair toA) ⟨flag, prs⟩ = some ⟨flag', prs'⟩ ∧
        ∀ k, (mapLookup m' k).getD [] = pairsFor k prs') := by
  intro lines
  induction lines with
  | nil =>
      intro flag m prs hrel
      exact Or.inr ⟨flag, m, prs, rfl, rfl, hrel⟩
  | cons l rest ih =>
      intro flag m prs hrel
      rw [List.foldlM_cons, List.foldlM_cons]
      rcases processLine_pair_rel toA l flag m prs hrel with ⟨hn1, hn2⟩ | ⟨f', m', prs', hs1, hs2, hrel'⟩
      · rw [hn1, hn2]
        exact Or.inl ⟨rfl, rfl⟩
      · rw [hs1, hs2]
        simp only [Option.bind_eq_bind, Option.some_bind]
        exact ih f' m' prs' hrel'

/-- The builder stores every rule under its signature, preserving the
input insertion order per signature and never collapsing rules that
share a signature: looking up any signature in the built map yields
exactly the scanned `(signature, rule)` pairs carrying that signature,
in scan order. -/
theorem newList_scanRules (toA : List Char → Option (List Char)) (lines : List (List Char))
    (release : List Char) (info : RulesInfo) (h : newList toA lines release = some info) :
    ∃ prs, scanRules toA lines = some prs ∧
      ∀ k, (mapLookup info.map k).getD [] = pairsFor k prs := by
  unfold newList at h
  have hrel0 : ∀ k, (mapLookup ([] : List (List Char × List Rule)) k).getD [] =
      pairsFor k ([] : List (List Char × Rule)) := by
    intro k; rfl
  rcases foldlM_pair_rel toA lines false [] [] hrel0 with ⟨hn1, _⟩ | ⟨f', m', prs', hs1, hs2, hrel'⟩
  · rw [hn1] at h
    simp at h
  · rw [hs1] at h
    simp only [Option.map_some'] at h
    cases h
    refine ⟨prs', ?_, hrel'⟩
    unfold scanRules
    rw [hs2]
    rfl

/-- A non-marker, non-blank, non-comment line that fails ASCII conversion
or fails canonical-form validation makes the scanner abort, whatever the
current state is. -/
theorem processLine_bad (toA : List Char → Option (List Char)) (st : ScanState)
    (line : List Char)
    (hm1 : goContains (trimSpace line) icannBeginMarker = false)
    (hm2 : goContains (trimSpace line) icannEndMarker = false)
    (hblank : trimSpace line ≠ [])
    (hcomment : goStartsWith (trimSpace line) "//".data = false)
    (hbad : ∀ conv, toA (trimSpace line) = some conv → validLine conv = false) :
    processLine toA st line = none := by
  rw [processLine]
  simp only
  rw [if_neg (by rw [hm1]; simp), if_neg (by rw [hm2]; simp),
    if_neg (by rw [hcomment]; simp [hblank])]
  cases hconv : toA (trimSpace line) with
  | none => rfl
  | some conv =>
      simp only
      rw [if_pos (hbad conv hconv)]

theorem foldlM_processLine_bad (toA : List Char → Option (List Char)) (bad : List Char)
    (hbadline : ∀ st : ScanState, processLine toA st bad = none) :
    ∀ (pre post : List (List Char)) (st : ScanState),
      ((pre ++ bad :: post).foldlM (processLine toA) st : Option ScanState) = none := by
  intro pre
  induction pre with
  | nil =>
      intro post st
      rw [List.nil_append, List.foldlM_cons, hbadline st]
      rfl
  | cons l pres ih =>
      intro post st
      rw [List.cons_append, List.foldlM_cons]
      cases hp : processLine toA st l with
      | none => rfl
      | some st1 =>
          simp only [Option.bind_eq_bind, Option.some_bind]
          exact ih post st1

/-- When no decomposition level produces a result, `searchList` falls
through to the implicit `*` default rule. -/
theorem searchList_default (info : RulesInfo) (domain : List Char)
    (hguard : ¬ strLastIndexChar domain '.' = (domain.length : Int) - 1)
    (hnone : searchLevels info.map domain (decomposeDomain domain) = none) :
    searchList info domain =
      (domain.drop ((strLastIndexChar domain '.') + 1).toNat, false, false) := by
  rw [searchList, if_neg hguard, hnone]

theorem suffix_drop_eq (l₁ l₂ : List Char) (h : l₁ <:+ l₂) :
    l₂.drop (l₂.length - l₁.length) = l₁ := by
  obtain ⟨t, rfl⟩ := h
  rw [List.length_append]
  have : t.length + l₁.length - l₁.length = t.length := by omega
  rw [this]
  exact List.drop_left t l₁

theorem decodeRule_encodeRule (r : Rule) : decodeRule (encodeRule r) = some r := by
  obtain ⟨dn, rt, ic⟩ := r
  cases rt <;> rfl

theorem mapM_decodeRule_encodeRule (rs : List Rule) :
    (rs.map encodeRule).mapM decodeRule = some rs := by
  induction rs with
  | nil => rfl
  | cons r rest ih =>
      rw [List.map_cons, List.mapM_cons, decodeRule_encodeRule r, ih]
      rfl

theorem decodeMap_encodeMap (m : List (List Char × List Rule)) :
    decodeMap (.jobj (m.map fun p => (p.1, .jarr (p.2.map encodeRule)))) = some m := by
  induction m with
  | nil => rfl
  | cons p rest ih =>
      obtain ⟨k, rs⟩ := p
      show ((( (k, JVal.jarr (rs.map encodeRule))) ::
          (rest.map fun p => (p.1, JVal.jarr (p.2.map encodeRule)))).mapM
            fun p => (decodeRules p.2).map fun rs => (p.1, rs)) = some ((k, rs) :: rest)
      rw [List.mapM_cons]
      have h1 : (decodeRules (JVal.jarr (rs.map encodeRule))).map (fun rs' => (k, rs')) =
          some (k, rs) := by
        show ((rs.map encodeRule).mapM decodeRule).map (fun rs' => (k, rs')) = _
        rw [mapM_decodeRule_encodeRule rs]
        rfl
      have ih' : ((rest.map fun p => (p.1, JVal.jarr (p.2.map encodeRule))).mapM
          fun p => (decodeRules p.2).map fun rs => (p.1, rs)) = some rest := ih
      rw [show ((decodeRules (k, JVal.jarr (rs.map encodeRule)).2).map
          fun rs' => ((k, JVal.jarr (rs.map encodeRule)).1, rs')) =
            (decodeRules (JVal.jarr (rs.map encodeRule))).map (fun rs' => (k, rs')) from rfl]
      rw [h1, ih']
      rfl

/-- Round trip of the serialisation path: unmarshalling the marshalled
form of any rules table restores it exactly (same map contents, same
release), with no transformation in either direction. -/
theorem decode_encode_rulesInfo (info : RulesInfo) :
    decodeRulesInfo (encodeRulesInfo info) = some info := by
  obtain ⟨m, rel⟩ := info
  show (match (match jlookup [("Map".data,
          JVal.jobj (m.map fun p => (p.1, JVal.jarr (p.2.map encodeRule)))),
          ("Release".data, JVal.jstr rel)] "Map".data with
        | none => some []
        | some v => decodeMap v),
      (match jlookup [("Map".data,
          JVal.jobj (m.map fun p => (p.1, JVal.jarr (p.2.map encodeRule)))),
          ("Release".data, JVal.jstr rel)] "Release".data with
        | none => some []
        | some (.jstr s) => some s
        | some _ => none) with
    | some m', some rel' => some (⟨m', rel'⟩ : RulesInfo)
    | _, _ => none) = some ⟨m, rel⟩
  rw [show jlookup [("Map".data,
      JVal.jobj (m.map fun p => (p.1, JVal.jarr (p.2.map encodeRule)))),
      ("Release".data, JVal.jstr rel)] "Map".data =
        some (JVal.jobj (m.map fun p => (p.1, JVal.jarr (p.2.map encodeRule)))) from by
    rw [jlookup, if_pos rfl]]
  rw [show jlookup [("Map".data,
      JVal.jobj (m.map fun p => (p.1, JVal.jarr (p.2.map encodeRule)))),
      ("Release".data, JVal.jstr rel)] "Release".data = some (JVal.jstr rel) from by
    rw [jlookup, if_neg (by decide), jlookup, if_pos rfl]]
  simp only
  rw [decodeMap_encodeMap m]

/-- Decomposition of a successful `EffectiveTLDPlusOne` result: provided
the resolved public suffix actually occurs as a suffix of the domain,
the result is that suffix preceded by a separator and exactly one more
(dot-free) label, and is itself a suffix of the domain. -/
theorem etldPlusOne_success_decomp (info : RulesInfo) (domain r : List Char)
    (h : EffectiveTLDPlusOne info domain = some r)
    (hsuf : (PublicSuffix info domain).1 <:+ domain) :
    ∃ lbl, r = lbl ++ '.' :: (PublicSuffix info domain).1 ∧ '.' ∉ lbl ∧ r <:+ domain := by
  rw [EffectiveTLDPlusOne] at h
  simp only at h
  by_cases h1 : domain.length ≤ (PublicSuffix info domain).1.length
  · rw [if_pos h1] at h
    exact absurd h (by simp)
  · rw [if_neg h1] at h
    by_cases h2 : domain.getD (domain.length - (PublicSuffix info domain).1.length - 1) ' ' ≠ '.'
    · rw [if_pos h2] at h
      exact absurd h (by simp)
    · rw [if_neg h2] at h
      injection h with h
      have hdot : domain.getD (domain.length - (PublicSuffix info domain).1.length - 1) ' '
          = '.' := not_not.mp h2
      have hlen : (PublicSuffix info domain).1.length < domain.length := by omega
      have hib : domain.length - (PublicSuffix info domain).1.length - 1 < domain.length := by
        omega
      have hdropi1 : domain.drop (domain.length - (PublicSuffix info domain).1.length - 1 + 1)
          = (PublicSuffix info domain).1 := by
        have he := suffix_drop_eq (PublicSuffix info domain).1 domain hsuf
        have harith : domain.length - (PublicSuffix info domain).1.length =
            domain.length - (PublicSuffix info domain).1.length - 1 + 1 := by omega
        rw [harith] at he
        exact he
      have hget : domain.get ⟨domain.length - (PublicSuffix info domain).1.length - 1, hib⟩
          = '.' := by
        rw [← hdot, List.getD_eq_get?, List.get?_eq_get hib]
        rfl
      have hdropi : domain.drop (domain.length - (PublicSuffix info domain).1.length - 1)
          = '.' :: (PublicSuffix info domain).1 := by
        rw [List.drop_eq_get_cons hib, hget, hdropi1]
      have hjb := strLastIndexChar_bounds
        (domain.take (domain.length - (PublicSuffix info domain).1.length - 1)) '.'
      have htli : (domain.take
          (domain.length - (PublicSuffix info domain).1.length - 1)).length =
          domain.length - (PublicSuffix info domain).1.length - 1 := by
        rw [List.length_take]; omega
      have hji : ((strLastIndexChar
          (domain.take (domain.length - (PublicSuffix info domain).1.length - 1)) '.')
            + 1).toNat ≤ domain.length - (PublicSuffix info domain).1.length - 1 := by
        omega
      refine ⟨(domain.drop ((strLastIndexChar
          (domain.take (domain.length - (PublicSuffix info domain).1.length - 1)) '.')
            + 1).toNat).take
          (domain.length - (PublicSuffix info domain).1.length - 1 -
            ((strLastIndexChar
              (domain.take (domain.length - (PublicSuffix info domain).1.length - 1)) '.')
                + 1).toNat), ?_, ?_, ?_⟩
      · rw [← h, ← hdropi]
        conv_lhs => rw [← List.take_append_drop
          (domain.length - (PublicSuffix info domain).1.length - 1 -
            ((strLastIndexChar
              (domain.take (domain.length - (PublicSuffix info domain).1.length - 1)) '.')
                + 1).toNat)
          (domain.drop ((strLastIndexChar
            (domain.take (domain.length - (PublicSuffix info domain).1.length - 1)) '.')
              + 1).toNat)]
        congr 1
        rw [List.drop_drop]
        congr 1
        omega
      · rw [← List.drop_take]
        exact strLastIndexChar_drop_not_mem
          (domain.take (domain.length - (PublicSuffix info domain).1.length - 1)) '.'
      · rw [← h]
        exact List.drop_suffix _ _

/-
  Claim theorems.
-/

/-- C1 counterexample: with the single wildcard rule `*.ck` loaded,
`resolve("test.ck")` returns `"test.ck"` with `matched = true` — not
`""` as the claim asserts.  (`"test.ck"` is not shorter than `"*.ck"`,
so the wildcard matches normally with left side `"test"`.) -/
theorem claim_C1_counterexample :
    newList asciiId ["*.ck".data] "r".data = some ckInfo ∧
    searchList ckInfo "test.ck".data = ("test.ck".data, false, true) ∧
    "test.ck".data ≠ ([] : List Char) := by
  refine ⟨by decide, by decide, by decide⟩

/-- C1 (amended): with wildcard rule `*.ck`, `resolve(".ck")` returns
`".ck"` with `matched = true`, `resolve("a.ck")` returns `"a.ck"`, and
`resolve("test.ck")` returns `"test.ck"` (not `""`); in general, when
the queried domain is strictly shorter than a wildcard rule's dotted
pattern, the candidate matches only in the degenerate case where the
domain equals the pattern with the wildcard segment empty (returning the
domain itself), and otherwise the candidate fails and the search
continues with the remaining candidates. -/
theorem claim_C1_amended :
    (newList asciiId ["*.ck".data] "r".data = some ckInfo ∧
      searchList ckInfo ".ck".data = (".ck".data, false, true) ∧
      searchList ckInfo "a.ck".data = ("a.ck".data, false, true) ∧
      searchList ckInfo "test.ck".data = ("test.ck".data, false, true)) ∧
    (∀ (domain : List Char) (sub : Subdomain) (r : Rule) (rest : List Rule),
      r.ruleType = RuleType.wildcard →
      domain.length < r.dottedName.length →
      ¬(domain.headD ' ' = '.' ∧ domain = r.dottedName.drop 1) →
      searchRules domain sub (r :: rest) = searchRules domain sub rest) ∧
    (∀ (domain : List Char) (sub : Subdomain) (r : Rule) (rest : List Rule),
      r.ruleType = RuleType.wildcard →
      goHasSuffix sub.dottedName (r.dottedName.drop 2) = true →
      domain.length < r.dottedName.length →
      domain.headD ' ' = '.' → domain = r.dottedName.drop 1 →
      searchRules domain sub (r :: rest) = some (domain, r.icann, true)) := by
  refine ⟨⟨by decide, by decide, by decide, by decide⟩, ?_, ?_⟩
  · intro domain sub r rest ht hlt hc
    exact searchRules_wildcard_short_skip domain sub r rest ht hlt hc
  · intro domain sub r rest ht hs hlt hd he
    exact searchRules_wildcard_degenerate domain sub r rest ht hs hlt hd he

/-- Witness for C1: the general parts of the amended claim evaluated at
concrete inputs. -/
theorem claim_C1_witness :
    searchRules "x.ck".data ⟨"xck".data, "x.ck".data⟩
        [⟨"*.tck".data, RuleType.wildcard, false⟩] = none ∧
    searchRules ".ck".data ⟨"ck".data, ".ck".data⟩
        [⟨"*.ck".data, RuleType.wildcard, false⟩] = some (".ck".data, false, true) := by
  constructor
  · rw [claim_C1_amended.2.1 "x.ck".data ⟨"xck".data, "x.ck".data⟩
      ⟨"*.tck".data, RuleType.wildcard, false⟩ [] rfl (by decide) (by decide)]
    rfl
  · exact claim_C1_amended.2.2 ".ck".data ⟨"ck".data, ".ck".data⟩
      ⟨"*.ck".data, RuleType.wildcard, false⟩ [] rfl (by decide) (by decide)
      (by decide) (by decide)

/-- C2 counterexample: a retriever whose latest release tag is the empty
string, applied while the published table has release `"test"`, makes
`UpdateWithListRetriever` fetch the list and republish (here an empty
table with release `""`) instead of leaving the published rules
unchanged: the empty tag is not treated as "nothing to do". -/
theorem claim_C2_counterexample :
    UpdateWithListRetriever asciiId ⟨some [], fun _ => some []⟩
        ⟨[("com".data, [⟨"com".data, RuleType.normal, true⟩])], "test".data⟩ =
      (⟨[], []⟩, true) ∧
    (⟨[], []⟩ : RulesInfo) ≠
      ⟨[("com".data, [⟨"com".data, RuleType.normal, true⟩])], "test".data⟩ := by
  refine ⟨by decide, by decide⟩

/-- C2 (amended): for every list retriever, when the retrieved latest
release tag equals the currently published release,
`UpdateWithListRetriever` leaves the published rules unchanged and
returns success without fetching or rebuilding; an empty retrieved tag
receives no special treatment (it is a no-op only when the current
release is itself empty; the GitHub retriever reports an empty tag as an
error before this function sees it). -/
theorem claim_C2_amended :
    ∀ (toA : List Char → Option (List Char)) (lr : ListRetrieverModel)
      (current : RulesInfo),
      lr.getLatestReleaseTag = some current.release →
      UpdateWithListRetriever toA lr current = (current, true) := by
  intro toA lr current h
  rw [UpdateWithListRetriever, h]
  simp only
  rw [if_pos trivial]

/-- Witness for C2: the amended no-op case at a concrete retriever. -/
theorem claim_C2_witness :
    UpdateWithListRetriever asciiId ⟨some "test".data, fun _ => none⟩
      ⟨[], "test".data⟩ = (⟨[], "test".data⟩, true) :=
  claim_C2_amended asciiId ⟨some "test".data, fun _ => none⟩ ⟨[], "test".data⟩ rfl

/-- C3: for every non-empty domain without a trailing dot on which no
decomposition level yields a structurally applicable rule, `searchList`
returns the domain's last label (everything after the final `'.'`, the
whole domain if it contains no `'.'`), with `authoritative = false` and
`matched = false`. -/
theorem claim_C3 :
    ∀ (info : RulesInfo) (domain : List Char),
      domain ≠ [] →
      domain.getLast? ≠ some '.' →
      (∀ sub ∈ decomposeDomain domain,
        ∀ r ∈ (mapLookup info.map sub.name).getD [], isApplicable domain sub r = false) →
      ∃ l, searchList info domain = (l, false, false) ∧ '.' ∉ l ∧
        (l = domain ∨ ('.' :: l) <:+ domain) := by
  intro info domain hne hlast hno
  have hguard : ¬ strLastIndexChar domain '.' = (domain.length : Int) - 1 := by
    intro hg
    exact hlast ((strLastIndexChar_last_iff domain '.' hne).mp hg)
  have hnone := searchLevels_none_of info.map domain (decomposeDomain domain) hno
  exact ⟨domain.drop ((strLastIndexChar domain '.') + 1).toNat,
    searchList_default info domain hguard hnone,
    strLastIndexChar_drop_not_mem domain '.',
    strLastIndexChar_drop_suffix domain '.'⟩

/-- Witness for C3: the table holding only `com`, queried at `b.org`. -/
theorem claim_C3_witness :
    ∃ l, searchList comInfo "b.org".data = (l, false, false) ∧ '.' ∉ l ∧
      (l = "b.org".data ∨ ('.' :: l) <:+ "b.org".data) :=
  claim_C3 comInfo "b.org".data (by decide) (by decide) (by decide)

/-- C4: the resolver probes decomposition levels from most labels to
fewest, and the first level producing a structurally valid candidate
determines the result — levels listed after a successful one can never
change it; in particular with rules `uk` and `co.uk` loaded,
`resolve("b.co.uk")` returns `"co.uk"` and not `"uk"`. -/
theorem claim_C4 :
    (∀ (m : List (List Char × List Rule)) (domain : List Char)
        (pre post : List Subdomain) (res : SearchResult),
      searchLevels m domain pre = some res →
      searchLevels m domain (pre ++ post) = some res) ∧
    newList asciiId ["uk".data, "co.uk".data] "r".data = some ukInfo ∧
    searchList ukInfo "b.co.uk".data = ("co.uk".data, false, true) ∧
    "co.uk".data ≠ "uk".data := by
  refine ⟨searchLevels_mono, by decide, by decide, by decide⟩

/-- Witness for C4: the level-precedence part evaluated concretely — a
successful more-specific level is unaffected by the levels after it. -/
theorem claim_C4_witness :
    searchLevels ukInfo.map "b.co.uk".data
      ([⟨"couk".data, "co.uk".data⟩] ++ [⟨"uk".data, "uk".data⟩]) =
      some ("co.uk".data, false, true) :=
  claim_C4.1 ukInfo.map "b.co.uk".data [⟨"couk".data, "co.uk".data⟩]
    [⟨"uk".data, "uk".data⟩] ("co.uk".data, false, true) (by decide)

/-- C5: a structurally applicable exception rule (the subdomain's dotted
value ends with the rule's dotted name without its `!` marker) returns
immediately with the rule's label sequence truncated after its leftmost
label, `matched = true`, and the rule's ICANN flag; in particular, with
`*.kobe.jp` and `!city.kobe.jp` loaded, `resolve("city.kobe.jp")`
returns `"kobe.jp"` while `resolve("c.kobe.jp")` returns
`"c.kobe.jp"`. -/
theorem claim_C5 :
    (∀ (domain : List Char) (sub : Subdomain) (r : Rule) (rest : List Rule),
      r.ruleType = RuleType.exception →
      goHasSuffix sub.dottedName (r.dottedName.drop 1) = true →
      searchRules domain sub (r :: rest) =
        some (r.dottedName.drop ((strIndexChar r.dottedName '.') + 1).toNat,
          r.icann, true)) ∧
    newList asciiId ["*.kobe.jp".data, "!city.kobe.jp".data] "r".data = some kobeInfo ∧
    searchList kobeInfo "city.kobe.jp".data = ("kobe.jp".data, false, true) ∧
    searchList kobeInfo "c.kobe.jp".data = ("c.kobe.jp".data, false, true) := by
  refine ⟨?_, by decide, by decide, by decide⟩
  intro domain sub r rest ht hs
  exact searchRules_exception_hit domain sub r rest ht hs

/-- Witness for C5: the exception-hit part evaluated concretely. -/
theorem claim_C5_witness :
    searchRules "city.kobe.jp".data ⟨"citykobejp".data, "city.kobe.jp".data⟩
        [⟨"!city.kobe.jp".data, RuleType.exception, false⟩] =
      some ("kobe.jp".data, false, true) :=
  (claim_C5.1 "city.kobe.jp".data ⟨"citykobejp".data, "city.kobe.jp".data⟩
    ⟨"!city.kobe.jp".data, RuleType.exception, false⟩ [] rfl (by decide)).trans (by decide)

/-- C6: the builder stores every rule under its signature (dots removed,
leading `*`/`!` marker stripped) in an ordered collection preserving
input insertion order and never collapsing distinct rules that share a
signature — looking up any signature yields exactly the scanned rules of
that signature in scan order; in particular, with `i.ng` and `ing`
loaded (both signature `ing`, both preserved in order),
`resolve("i.ng")` returns `"i.ng"` and `resolve("x.ing")` returns
`"ing"`. -/
theorem claim_C6 :
    (∀ (toA : List Char → Option (List Char)) (lines : List (List Char))
        (release : List Char) (info : RulesInfo),
      newList toA lines release = some info →
      ∃ prs, scanRules toA lines = some prs ∧
        ∀ k, (mapLookup info.map k).getD [] = pairsFor k prs) ∧
    newList asciiId ["i.ng".data, "ing".data] "r".data = some ingInfo ∧
    mapLookup ingInfo.map "ing".data =
      some [⟨"i.ng".data, RuleType.normal, false⟩, ⟨"ing".data, RuleType.normal, false⟩] ∧
    searchList ingInfo "i.ng".data = ("i.ng".data, false, true) ∧
    searchList ingInfo "x.ing".data = ("ing".data, false, true) := by
  refine ⟨newList_scanRules, by decide, by decide, by decide, by decide⟩

/-- Witness for C6: the order-preservation part at the `i.ng`/`ing`
table. -/
theorem claim_C6_witness :
    ∃ prs, scanRules asciiId ["i.ng".data, "ing".data] = some prs ∧
      ∀ k, (mapLookup ingInfo.map k).getD [] = pairsFor k prs :=
  claim_C6.1 asciiId ["i.ng".data, "ing".data] "r".data ingInfo (by decide)

/-- C7 counterexample: `"BEGIN ICANN DOMAINS"` is a non-blank,
non-comment line containing characters outside the canonical set (spaces
and capitals), yet the build succeeds (the line is consumed as a section
marker before conversion and validation), refuting the claim that any
such line aborts the build. -/
theorem claim_C7_counterexample :
    validLine "BEGIN ICANN DOMAINS".data = false ∧
    trimSpace "BEGIN ICANN DOMAINS".data = "BEGIN ICANN DOMAINS".data ∧
    "BEGIN ICANN DOMAINS".data ≠ ([] : List Char) ∧
    goStartsWith "BEGIN ICANN DOMAINS".data "//".data = false ∧
    asciiId "BEGIN ICANN DOMAINS".data = some "BEGIN ICANN DOMAINS".data ∧
    newList asciiId ["BEGIN ICANN DOMAINS".data] "r".data = some ⟨[], "r".data⟩ := by
  refine ⟨by decide, by decide, by decide, by decide, by decide, by decide⟩

/-- C7 (amended): building a table returns an error and no table
whenever any non-blank, non-comment line that does not contain an ICANN
section marker fails ASCII conversion or, after conversion, fails the
canonical-form validation; and a failed build or update attempt has no
side effect, leaving the previously published table untouched. -/
theorem claim_C7_amended :
    (∀ (toA : List Char → Option (List Char)) (lines : List (List Char))
        (release rawLine : List Char),
      rawLine ∈ lines →
      goContains (trimSpace rawLine) icannBeginMarker = false →
      goContains (trimSpace rawLine) icannEndMarker = false →
      trimSpace rawLine ≠ [] →
      goStartsWith (trimSpace rawLine) "//".data = false →
      (∀ conv, toA (trimSpace rawLine) = some conv → validLine conv = false) →
      newList toA lines release = none) ∧
    (∀ (toA : List Char → Option (List Char)) (lr : ListRetrieverModel)
        (current : RulesInfo),
      (UpdateWithListRetriever toA lr current).2 = false →
      (UpdateWithListRetriever toA lr current).1 = current) := by
  constructor
  · intro toA lines release rawLine hmem hm1 hm2 hb hc hbad
    obtain ⟨pre, post, rfl⟩ := List.append_of_mem hmem
    unfold newList
    rw [foldlM_processLine_bad toA rawLine
      (fun st => processLine_bad toA st rawLine hm1 hm2 hb hc hbad) pre post _]
    rfl
  · intro toA lr current h
    unfold UpdateWithListRetriever at h ⊢
    cases hlt : lr.getLatestReleaseTag with
    | none => rfl
    | some tag =>
        rw [hlt] at h
        simp only at h ⊢
        by_cases he : current.release = tag
        · rw [if_pos he]
        · rw [if_neg he] at h ⊢
          cases hgl : lr.getList tag with
          | none => rfl
          | some rawList =>
              rw [hgl] at h
              simp only at h ⊢
              cases hnl : newList toA rawList tag with
              | none => rfl
              | some inf =>
                  rw [hnl] at h
                  simp at h

/-- Witness for C7: a failing conversion aborts the build, and a failed
update leaves the published table untouched. -/
theorem claim_C7_witness :
    newList (fun _ => none) ["ac".data] "r".data = none ∧
    (UpdateWithListRetriever asciiId ⟨some "x".data, fun _ => none⟩ ⟨[], []⟩).1 =
      (⟨[], []⟩ : RulesInfo) := by
  constructor
  · exact claim_C7_amended.1 (fun _ => none) ["ac".data] "r".data "ac".data
      (by decide) (by decide) (by decide) (by decide) (by decide)
      (fun conv hc => Option.noConfusion hc)
  · exact claim_C7_amended.2 asciiId ⟨some "x".data, fun _ => none⟩ ⟨[], []⟩ (by decide)

/-- C8: `EffectiveTLDPlusOne` returns an error exactly when the domain
is not longer than its resolved public suffix or when the character
immediately preceding the suffix position in the domain is not `'.'`;
otherwise it returns the public suffix preceded by a separator and
exactly one more dot-free label (stated under the hypothesis that the
resolved suffix occurs as a suffix of the domain); in particular, with
rule `com` loaded, the result for `"example.com"` is `"example.com"`
and the call for `"com"` fails with an error instead of panicking or
coercing. -/
theorem claim_C8 :
    (∀ (info : RulesInfo) (domain : List Char),
      EffectiveTLDPlusOne info domain = none ↔
        (domain.length ≤ (PublicSuffix info domain).1.length ∨
          domain.getD (domain.length - (PublicSuffix info domain).1.length - 1) ' '
            ≠ '.')) ∧
    (∀ (info : RulesInfo) (domain r : List Char),
      EffectiveTLDPlusOne info domain = some r →
      (PublicSuffix info domain).1 <:+ domain →
      ∃ lbl, r = lbl ++ '.' :: (PublicSuffix info domain).1 ∧ '.' ∉ lbl ∧
        r <:+ domain) ∧
    newList asciiId ["com".data] "r".data = some comInfo ∧
    EffectiveTLDPlusOne comInfo "example.com".data = some "example.com".data ∧
    EffectiveTLDPlusOne comInfo "com".data = none := by
  refine ⟨?_, etldPlusOne_success_decomp, by decide, by decide, by decide⟩
  intro info domain
  rw [EffectiveTLDPlusOne]
  simp only
  by_cases h1 : domain.length ≤ (PublicSuffix info domain).1.length
  · rw [if_pos h1]
    exact iff_of_true rfl (Or.inl h1)
  · rw [if_neg h1]
    by_cases h2 : domain.getD (domain.length - (PublicSuffix info domain).1.length - 1) ' '
        ≠ '.'
    · rw [if_pos h2]
      exact iff_of_true rfl (Or.inr h2)
    · rw [if_neg h2]
      exact iff_of_false (by simp) (fun hAB => hAB.elim h1 h2)

/-- Witness for C8: the error characterisation and the success
decomposition at concrete inputs. -/
theorem claim_C8_witness :
    (EffectiveTLDPlusOne comInfo "com".data = none ↔
      ("com".data.length ≤ (PublicSuffix comInfo "com".data).1.length ∨
        "com".data.getD ("com".data.length -
          (PublicSuffix comInfo "com".data).1.length - 1) ' ' ≠ '.')) ∧
    (∃ lbl, "example.com".data =
        lbl ++ '.' :: (PublicSuffix comInfo "example.com".data).1 ∧ '.' ∉ lbl ∧
        "example.com".data <:+ "example.com".data) := by
  constructor
  · exact claim_C8.1 comInfo "com".data
  · exact claim_C8.2.1 comInfo "example.com".data "example.com".data (by decide) (by decide)

/-- C9: serialisation round trip — unmarshalling the marshalled form of
any loaded rules table yields the table back, with the same
signature-to-ordered-rule-list map contents and the same release tag,
and no business-logic transformation in either direction. -/
theorem claim_C9 : ∀ info : RulesInfo, ReadJson (WriteJson info) = some info :=
  decode_encode_rulesInfo

/-- C10: on every table produced by the builder and every input string,
the bounds-checked resolver completes without any out-of-bounds index or
slice and agrees with the plain model (so `searchList` is total and
never panics), and empty or trailing-dot input short-circuits to
`("", false, false)`. -/
theorem claim_C10 :
    ∀ (toA : List Char → Option (List Char)) (lines : List (List Char))
      (release : List Char) (info : RulesInfo) (domain : List Char),
      newList toA lines release = some info →
      searchListChecked info domain = some (searchList info domain) ∧
      ((domain = [] ∨ domain.getLast? = some '.') →
        searchList info domain = ([], false, false)) := by
  intro toA lines release info domain hinfo
  refine ⟨searchListChecked_eq toA lines release info hinfo domain, ?_⟩
  intro hcase
  rw [searchList]
  have hguard : strLastIndexChar domain '.' = (domain.length : Int) - 1 := by
    rcases hcase with hc | hc
    · subst hc; rfl
    · have hne : domain ≠ [] := by
        intro hn
        rw [hn] at hc
        simp at hc
      exact (strLastIndexChar_last_iff domain '.' hne).mpr hc
  rw [if_pos hguard]

/-- Witness for C10: the checked resolver agrees with the plain one on
the `*.ck` table for a malformed-ish query, and a trailing-dot query
short-circuits. -/
theorem claim_C10_witness :
    searchListChecked ckInfo "b..ck".data = some (searchList ckInfo "b..ck".data) ∧
    searchList ckInfo "free.".data = ([], false, false) := by
  refine ⟨(claim_C10 asciiId ["*.ck".data] "r".data ckInfo "b..ck".data (by decide)).1,
    (claim_C10 asciiId ["*.ck".data] "r".data ckInfo "free.".data (by decide)).2
      (Or.inr (by decide))⟩
